import Mathlib

/-!
# `internal/protoio`: the persistent message store

A shallow embedding of `src/internal/protoio/protoio.go` together with the
library functions it calls, followed by the properties of the store that the
specification states.

Go strings are byte strings, so identifiers, file names, paths and file
contents are all lists of bytes.
-/

namespace Protoio

/-! ## Bytes and strings -/

/-- A Go `byte`. -/
abbrev Byte := Fin 256

/-- A Go `string` or `[]byte`: a finite sequence of bytes. -/
abbrev Bytes := List Byte

/-! ## `net/url`: query escaping

`idToFname` calls `url.QueryEscape` and `ListIDs` calls `url.QueryUnescape`.
Both are functions of the Go standard library; they are transcribed here for
the one mode they are used in, `encodeQueryComponent`. -/

/-- Table `upperhex = "0123456789ABCDEF"` of `net/url`. -/
def upperhex : Bytes := [48, 49, 50, 51, 52, 53, 54, 55, 56, 57, 65, 66, 67, 68, 69, 70]

/-- Function `ishex` of `net/url`: is `c` one of `0-9`, `a-f`, `A-F`. -/
def ishex (c : Byte) : Bool :=
  if 48 ≤ c.val ∧ c.val ≤ 57 then true
  else if 97 ≤ c.val ∧ c.val ≤ 102 then true
  else if 65 ≤ c.val ∧ c.val ≤ 70 then true
  else false

/-- Function `unhex` of `net/url`: the value of a hexadecimal digit. -/
def unhex (c : Byte) : Nat :=
  if 48 ≤ c.val ∧ c.val ≤ 57 then c.val - 48
  else if 97 ≤ c.val ∧ c.val ≤ 102 then c.val - 97 + 10
  else if 65 ≤ c.val ∧ c.val ≤ 70 then c.val - 65 + 10
  else 0

/-- Function `shouldEscape(c, encodeQueryComponent)` of `net/url`.
Alphanumerics and the marks `-`, `_`, `.`, `~` are unreserved; the reserved
characters `$&+,/:;=?@` and everything else must be escaped. -/
def shouldEscape (c : Byte) : Bool :=
  if (97 ≤ c.val ∧ c.val ≤ 122) ∨ (65 ≤ c.val ∧ c.val ≤ 90) ∨ (48 ≤ c.val ∧ c.val ≤ 57) then
    false
  else if c = 45 ∨ c = 95 ∨ c = 46 ∨ c = 126 then
    false
  else if c = 36 ∨ c = 38 ∨ c = 43 ∨ c = 44 ∨ c = 47 ∨ c = 58 ∨ c = 59 ∨ c = 61 ∨ c = 63
      ∨ c = 64 then
    true
  else
    true

/-- The first loop of `escape`: the number of spaces among the bytes to escape. -/
def spaceCount (s : Bytes) : Nat :=
  s.countP (fun c => shouldEscape c && decide (c = 32))

/-- The first loop of `escape`: the number of bytes that become `%XX`. -/
def hexCount (s : Bytes) : Nat :=
  s.countP (fun c => shouldEscape c && !decide (c = 32))

/-- The main loop of `escape`: a space becomes `+`, a byte to escape becomes
`%` followed by its two uppercase hexadecimal digits, other bytes are copied. -/
def escapeLoop : Bytes → Bytes
  | [] => []
  | c :: s =>
    if c = 32 then
      43 :: escapeLoop s
    else if shouldEscape c then
      37 :: upperhex.getD (c.val >>> 4) 0 :: upperhex.getD (c.val &&& 15) 0 :: escapeLoop s
    else
      c :: escapeLoop s

/-- Function `escape(s, encodeQueryComponent)` of `net/url`. -/
def escape (s : Bytes) : Bytes :=
  if spaceCount s = 0 ∧ hexCount s = 0 then
    s
  else if hexCount s = 0 then
    s.map (fun c => if c = 32 then 43 else c)
  else
    escapeLoop s

/-- Function `url.QueryEscape`. -/
def QueryEscape (s : Bytes) : Bytes := escape s

/-- Errors of `unescape`. -/
inductive UrlError where
  /-- Value `EscapeError(s)`: a malformed escape sequence, with the offending text. -/
  | EscapeError (s : Bytes)
  /-- An index out of range in the second loop (shown below never to happen). -/
  | indexOutOfRange
deriving DecidableEq, Repr

/-- The first loop of `unescape`: checks that every `%` is followed by two
hexadecimal digits, counting the escapes (`n`) and noting a `+` (`hasPlus`). -/
def unescapeCheck : Bytes → Nat → Bool → Except UrlError (Nat × Bool)
  | [], n, hasPlus => .ok (n, hasPlus)
  | c :: rest, n, hasPlus =>
    if c = 37 then
      match rest with
      | a :: b :: rest' =>
        if ishex a && ishex b then unescapeCheck rest' (n + 1) hasPlus
        else .error (.EscapeError ((c :: rest).take 3))
      | _ => .error (.EscapeError ((c :: rest).take 3))
    else if c = 43 then
      unescapeCheck rest n true
    else
      unescapeCheck rest n hasPlus

/-- The second loop of `unescape`: decodes `%XX` to the byte `XX` and `+` to
a space. The result is `none` when the loop would index past the end. -/
def unescapeLoop : Bytes → Option Bytes
  | [] => some []
  | c :: rest =>
    if c = 37 then
      match rest with
      | a :: b :: rest' =>
        (unescapeLoop rest').map
          (fun t => Fin.ofNat (((unhex a <<< 4) % 256) ||| unhex b) :: t)
      | _ => none
    else if c = 43 then
      (unescapeLoop rest).map (fun t => 32 :: t)
    else
      (unescapeLoop rest).map (fun t => c :: t)

/-- Function `unescape(s, encodeQueryComponent)` of `net/url`. -/
def unescape (s : Bytes) : Except UrlError Bytes :=
  match unescapeCheck s 0 false with
  | .error e => .error e
  | .ok (n, hasPlus) =>
    if n = 0 ∧ hasPlus = false then
      .ok s
    else
      match unescapeLoop s with
      | some t => .ok t
      | none => .error .indexOutOfRange

/-- Function `url.QueryUnescape`. -/
def QueryUnescape (s : Bytes) : Except UrlError Bytes := unescape s

/-! ## Errors -/

/-- The operating system error numbers that matter to the store. -/
inductive Errno where
  | ENOENT
  | EACCES
  | ENOTDIR
  | EISDIR
  | ENAMETOOLONG
deriving DecidableEq, Repr

/-- A Go `error` value as the store sees them: an `*os.PathError` carrying an
error number, or a parse error of the text codec with its message. -/
inductive Error where
  | PathError (errno : Errno)
  | ParseError (msg : Bytes)
deriving DecidableEq, Repr

/-- Function `os.IsNotExist`: whether `err` reports that a file or directory
does not exist. It is false of `nil` and of every error that is not `ENOENT`. -/
def IsNotExist : Option Error → Bool
  | some (.PathError .ENOENT) => true
  | _ => false

/-! ## The file system

The store works in one directory and addresses files by the path
`dir + "/" + name`. A file system state gives, for every directory path, the
state of that directory; paths are compared as text. Access to a directory is
all or nothing; a regular file can be read when its owner may read it. The
name of an entry is at most `NAME_MAX` bytes long; the limit on the length of
a whole path is not part of the model. -/

/-- An entry of a directory: a regular file with its content and permission
bits, or a subdirectory. -/
inductive Node where
  | file (data : Bytes) (perm : Nat)
  | dir
deriving DecidableEq, Repr

/-- What is found at a directory path. -/
inductive DirState where
  /-- Nothing exists at the path. -/
  | absent
  /-- The path names something that is not a directory. -/
  | notDir
  /-- The directory exists and the process may not access it. -/
  | denied
  /-- The directory exists, is accessible, and holds these named entries. -/
  | present (entries : List (Bytes × Node))
deriving DecidableEq

/-- A file system state: the state of the directory at each path. -/
abbrev FileSys := Bytes → DirState

/-- Splits a path at its last `/` into the directory part and the entry name;
a path without `/` names an entry of the current directory `.`. -/
def splitPath (p : Bytes) : Bytes × Bytes :=
  if (47 : Byte) ∈ p then
    (((p.reverse.dropWhile (fun c => decide (c ≠ 47))).drop 1).reverse,
     (p.reverse.takeWhile (fun c => decide (c ≠ 47))).reverse)
  else
    ([46], p)

/-- The entry called `name` among `entries`, if any. -/
def findEntry (name : Bytes) : List (Bytes × Node) → Option Node
  | [] => none
  | (n, node) :: entries => if n = name then some node else findEntry name entries

/-- The entries with `name` bound to `node`: an entry of that name is
replaced, otherwise one is added. All other entries are kept. -/
def setEntry (name : Bytes) (node : Node) (entries : List (Bytes × Node)) :
    List (Bytes × Node) :=
  (name, node) :: entries.filter (fun e => decide (e.1 ≠ name))

/-- The longest name, in bytes, that a directory entry may have. -/
def NAME_MAX : Nat := 255

/-- Path resolution: the node that the path `p` names, or the error number
with which resolving it fails. The directory is looked up first; in a
directory that exists, a name longer than `NAME_MAX` is refused. -/
def stat (fs : FileSys) (p : Bytes) : Except Errno Node :=
  match fs (splitPath p).1 with
  | .absent => .error .ENOENT
  | .notDir => .error .ENOTDIR
  | .denied => .error .EACCES
  | .present entries =>
    if NAME_MAX < (splitPath p).2.length then .error .ENAMETOOLONG
    else
      match findEntry (splitPath p).2 entries with
      | none => .error .ENOENT
      | some node => .ok node

/-- Whether the owner may read a file with permission bits `perm` (bit `0400`). -/
def ownerCanRead (perm : Nat) : Bool := (perm / 0o400) % 2 = 1

/-- Function `ioutil.ReadFile`: the content of the file `fname`, or the error
of opening or reading it. -/
def ReadFile (fs : FileSys) (fname : Bytes) : Except Error Bytes :=
  match stat fs fname with
  | .error errno => .error (.PathError errno)
  | .ok .dir => .error (.PathError .EISDIR)
  | .ok (.file data perm) =>
    if ownerCanRead perm then .ok data else .error (.PathError .EACCES)

/-- Go's order on strings: bytewise lexicographic. -/
def nameLE : Bytes → Bytes → Bool
  | [], _ => true
  | _ :: _, [] => false
  | a :: as, b :: bs => if a < b then true else if b < a then false else nameLE as bs

/-- Function `ioutil.ReadDir`: the names of the entries of the directory
`dirname`, sorted by name, or the error of reading it. -/
def ReadDir (fs : FileSys) (dirname : Bytes) : Except Error (List Bytes) :=
  match fs dirname with
  | .absent => .error (.PathError .ENOENT)
  | .notDir => .error (.PathError .ENOTDIR)
  | .denied => .error (.PathError .EACCES)
  | .present entries =>
    .ok ((entries.map Prod.fst).insertionSort (fun a b => nameLE a b = true))

/-- Modelled from the spec: `safeio.WriteFile`, the atomic file writer of package
`internal/safeio`, the source of which is not among the files of package
`protoio`. By the specification it writes the content so that the file is either fully written
with the new content or left unchanged, and it creates or overwrites exactly
one file. It returns the new file system state and the error, if any. -/
def WriteFile (fs : FileSys) (filename : Bytes) (data : Bytes) (perm : Nat) :
    FileSys × Option Error :=
  match fs (splitPath filename).1 with
  | .absent => (fs, some (.PathError .ENOENT))
  | .notDir => (fs, some (.PathError .ENOTDIR))
  | .denied => (fs, some (.PathError .EACCES))
  | .present entries =>
    if NAME_MAX < (splitPath filename).2.length then
      (fs, some (.PathError .ENAMETOOLONG))
    else
      match findEntry (splitPath filename).2 entries with
      | some .dir => (fs, some (.PathError .EISDIR))
      | _ =>
        (fun d =>
          if d = (splitPath filename).1 then
            .present (setEntry (splitPath filename).2 (.file data perm) entries)
          else fs d,
         none)

/-! ## The text codec

Package `proto` is an external collaborator. The store is generic in the
message type `M` and in the two codec functions it calls. -/

/-- The text form of the codec for messages of type `M`. -/
structure Codec (M : Type) where
  /-- Function `proto.MarshalTextString`. -/
  MarshalTextString : M → Bytes
  /-- Function `proto.UnmarshalText(s, pb)`: the value of `pb` after the call,
  and the message of the parse error, if any. -/
  UnmarshalText : Bytes → M → M × Option Bytes

/-! ## Package `protoio` -/

/-- Function `ReadTextMessage`: reads a text format message from `fname` and
unmarshals it into `pb`. Returns `pb` after the call and the error. -/
def ReadTextMessage {M : Type} (codec : Codec M) (fs : FileSys) (fname : Bytes) (pb : M) :
    M × Option Error :=
  match ReadFile fs fname with
  | .error err => (pb, some err)
  | .ok input =>
    ((codec.UnmarshalText input pb).1, (codec.UnmarshalText input pb).2.map Error.ParseError)

/-- Function `WriteTextMessage`: marshals `pb` in text format and atomically
writes it into `fname`. -/
def WriteTextMessage {M : Type} (codec : Codec M) (fs : FileSys) (fname : Bytes) (pb : M)
    (perm : Nat) : FileSys × Option Error :=
  WriteFile fs fname (codec.MarshalTextString pb) perm

/-- Type `Store`: a persistent message store, in directory `dir`. -/
structure Store where
  dir : Bytes

/-- Constant `storeIDPrefix = "s:"`. -/
def storeIDPrefix : Bytes := [115, 58]

/-- Method `idToFname`: the file for a generic id (which may or may not exist). -/
def Store.idToFname (s : Store) (id : Bytes) : Bytes :=
  s.dir ++ [47] ++ storeIDPrefix ++ QueryEscape id

/-- Method `Put`: puts a message into the store. -/
def Store.Put {M : Type} (codec : Codec M) (s : Store) (fs : FileSys) (id : Bytes) (m : M) :
    FileSys × Option Error :=
  WriteTextMessage codec fs (s.idToFname id) m 0o660

/-- Method `Get`: gets a message from the store. Returns `found`, the error,
and `m` after the call. -/
def Store.Get {M : Type} (codec : Codec M) (s : Store) (fs : FileSys) (id : Bytes) (m : M) :
    Bool × Option Error × M :=
  if IsNotExist (ReadTextMessage codec fs (s.idToFname id) m).2 then
    (false, none, (ReadTextMessage codec fs (s.idToFname id) m).1)
  else
    (decide ((ReadTextMessage codec fs (s.idToFname id) m).2 = none),
     (ReadTextMessage codec fs (s.idToFname id) m).2,
     (ReadTextMessage codec fs (s.idToFname id) m).1)

/-- The loop of `ListIDs` over the directory entries, with `ids` the list
built so far. -/
def listLoop : List Bytes → List Bytes → List Bytes
  | [], ids => ids
  | e :: entries, ids =>
    if !storeIDPrefix.isPrefixOf e then
      listLoop entries ids
    else
      match QueryUnescape (e.drop storeIDPrefix.length) with
      | .error _ => listLoop entries ids
      | .ok id => listLoop entries (ids ++ [id])

/-- Method `ListIDs`: the ids in the store. -/
def Store.ListIDs (s : Store) (fs : FileSys) : Except Error (List Bytes) :=
  match ReadDir fs s.dir with
  | .error err => .error err
  | .ok entries => .ok (listLoop entries [])

/-- A finite sequence of `Put` operations, each of which succeeds: the final
file system state, or `none` when one of them returns an error. -/
def putAll {M : Type} (codec : Codec M) (s : Store) : FileSys → List (Bytes × M) → Option FileSys
  | fs, [] => some fs
  | fs, (id, m) :: ops =>
    match (s.Put codec fs id m).2 with
    | none => putAll codec s (s.Put codec fs id m).1 ops
    | some _ => none

/-- The identifier that the directory entry called `name` adds to the result
of `ListIDs`, if it adds one: one pass of the loop body. -/
def entryID (name : Bytes) : Option Bytes :=
  if storeIDPrefix.isPrefixOf name then
    match QueryUnescape (name.drop storeIDPrefix.length) with
    | .ok id => some id
    | .error _ => none
  else none

/-- The state of the store directory that `Put` maintains: every entry whose
name starts with `s:` is a regular file with permission bits `0660` whose
name is `s:` followed by the escaped form of an identifier and is at most
`NAME_MAX` bytes long, and no two such entries have the same name. -/
def StoreInv (es : List (Bytes × Node)) : Prop :=
  (∀ e ∈ es, storeIDPrefix.isPrefixOf e.1 = true →
    ∃ id data, e = (storeIDPrefix ++ QueryEscape id, Node.file data 0o660) ∧
      (storeIDPrefix ++ QueryEscape id).length ≤ NAME_MAX) ∧
  ((es.map Prod.fst).filter (fun n => storeIDPrefix.isPrefixOf n)).Nodup

/-! ## The specification's wording of the encoding -/

/-- An ASCII letter or digit. -/
def isAlnum (c : Byte) : Bool :=
  (48 ≤ c.val ∧ c.val ≤ 57) ∨ (65 ≤ c.val ∧ c.val ≤ 90) ∨ (97 ≤ c.val ∧ c.val ≤ 122)

/-- One of the four marks `-`, `_`, `.`, `~`. -/
def isMark (c : Byte) : Bool := c = 45 ∨ c = 95 ∨ c = 46 ∨ c = 126

/-- The uppercase hexadecimal digit of a value below 16. -/
def hexDigitUpper (n : Nat) : Byte :=
  if n < 10 then Fin.ofNat (48 + n) else Fin.ofNat (65 + (n - 10))

/-- The three characters `%XX`, with `XX` the value of `c` in uppercase hexadecimal. -/
def percentXX (c : Byte) : Bytes := [37, hexDigitUpper (c.val / 16), hexDigitUpper (c.val % 16)]

/-- The encoding of one byte in the specification's words: alphanumerics and
`-_.~` pass through, every other byte becomes `%XX`. -/
def specEscapeByte (c : Byte) : Bytes :=
  if isAlnum c || isMark c then [c] else percentXX c

/-- The encoding of one byte in the specification's words, except that a
space becomes `+`. -/
def queryEscapeByte (c : Byte) : Bytes :=
  if isAlnum c || isMark c then [c] else if c = 32 then [43] else percentXX c

/-- Whether `s` starts with two hexadecimal digits. -/
def startsWithTwoHex : Bytes → Bool
  | a :: b :: _ => ishex a && ishex b
  | _ => false

/-- The specification's words for a remainder that is not validly
percent-encoded: some `%` in it is not followed by two hexadecimal digits. -/
def hasBadPercent : Bytes → Bool
  | [] => false
  | c :: rest => (decide (c = 37) && !startsWithTwoHex rest) || hasBadPercent rest

/-! ## Example data -/

/-- A text codec for natural numbers written in unary, as a run of the digit
`1`; any other text fails to parse and leaves the message untouched. -/
def unaryCodec : Codec Nat where
  MarshalTextString := fun n => List.replicate n 49
  UnmarshalText := fun input pb =>
    if input.all (fun c => decide (c = 49)) then (input.length, none)
    else (pb, some [98, 97, 100])

/-- The store in directory `d`. -/
def exampleStore : Store := ⟨[100]⟩

/-- A file system in which the directory `d` exists and holds one unrelated
file, `lock`. -/
def exampleFS : FileSys := fun d =>
  if d = [100] then .present [([108, 111, 99, 107], .file [] 0o600)] else .absent

/-- A file system in which nothing exists: the store directory has been removed. -/
def removedFS : FileSys := fun _ => .absent

/-- The entries `s:%zz` (malformed escape), `s:a%2Fb`, `lock`, `s:1` (a file
that is not valid text for the unary codec), `s:2` (a file the owner may not
read) and `s:3` (a subdirectory). -/
def messyEntries : List (Bytes × Node) :=
  [([115, 58, 37, 122, 122], .file [49] 0o660),
   ([115, 58, 97, 37, 50, 70, 98], .file [49, 49] 0o660),
   ([108, 111, 99, 107], .file [] 0o600),
   ([115, 58, 49], .file [120] 0o660),
   ([115, 58, 50], .file [49] 0o200),
   ([115, 58, 51], .dir)]

/-- A file system whose directory `d` holds the entries `messyEntries`. -/
def messyFS : FileSys := fun d => if d = [100] then .present messyEntries else .absent

/-! ## Facts about single bytes -/

set_option maxRecDepth 100000 in
theorem hexDigits_spec : ∀ c : Byte,
    ishex (upperhex.getD (c.val >>> 4) 0) = true ∧
    ishex (upperhex.getD (c.val &&& 15) 0) = true ∧
    (Fin.ofNat (((unhex (upperhex.getD (c.val >>> 4) 0) <<< 4) % 256) |||
      unhex (upperhex.getD (c.val &&& 15) 0)) : Byte) = c := by
  decide

set_option maxRecDepth 100000 in
theorem unreserved_ne : ∀ c : Byte, shouldEscape c = false → c ≠ 37 ∧ c ≠ 43 ∧ c ≠ 32 := by
  decide

theorem shouldEscape_space : shouldEscape 32 = true := by decide

/-! ## Escaping and unescaping are inverse -/

theorem unescapeCheck_cons (c : Byte) (rest : Bytes) (n : Nat) (hp : Bool) :
    unescapeCheck (c :: rest) n hp =
      if c = 37 then
        match rest with
        | a :: b :: rest' =>
          if ishex a && ishex b then unescapeCheck rest' (n + 1) hp
          else .error (.EscapeError ((c :: rest).take 3))
        | _ => .error (.EscapeError ((c :: rest).take 3))
      else if c = 43 then unescapeCheck rest n true
      else unescapeCheck rest n hp := by
  rw [unescapeCheck.eq_def]
  rfl

theorem unescapeLoop_cons (c : Byte) (rest : Bytes) :
    unescapeLoop (c :: rest) =
      if c = 37 then
        match rest with
        | a :: b :: rest' =>
          (unescapeLoop rest').map
            (fun t => Fin.ofNat (((unhex a <<< 4) % 256) ||| unhex b) :: t)
        | _ => none
      else if c = 43 then (unescapeLoop rest).map (fun t => 32 :: t)
      else (unescapeLoop rest).map (fun t => c :: t) := by
  rw [unescapeLoop.eq_def]
  rfl

theorem escapeLoop_of_unreserved (s : Bytes) (h : ∀ c ∈ s, shouldEscape c = false) :
    escapeLoop s = s := by
  induction s with
  | nil => rfl
  | cons c s ih =>
    have hc := h c (List.mem_cons_self _ _)
    have hne := (unreserved_ne c hc).2.2
    simp [escapeLoop, hne, hc, ih (fun x hx => h x (List.mem_cons_of_mem _ hx))]

theorem escapeLoop_of_spaces (s : Bytes) (h : ∀ c ∈ s, shouldEscape c = true → c = 32) :
    escapeLoop s = s.map (fun c => if c = 32 then 43 else c) := by
  induction s with
  | nil => rfl
  | cons c s ih =>
    have ih' := ih (fun x hx => h x (List.mem_cons_of_mem _ hx))
    by_cases hc : c = 32
    · simp [escapeLoop, hc, ih']
    · have hs : shouldEscape c = false := by
        cases hse : shouldEscape c with
        | false => rfl
        | true => exact absurd (h c (List.mem_cons_self _ _) hse) hc
      simp [escapeLoop, hc, hs, ih']

/-- The three branches of `escape` compute the same thing as its main loop. -/
theorem escape_eq_escapeLoop (s : Bytes) : escape s = escapeLoop s := by
  unfold escape
  split
  · rename_i h
    have h1 := h.1
    have h2 := h.2
    simp only [spaceCount, hexCount, List.countP_eq_zero] at h1 h2
    refine (escapeLoop_of_unreserved s ?_).symm
    intro c hc
    have a1 := h1 c hc
    have a2 := h2 c hc
    cases hse : shouldEscape c with
    | false => rfl
    | true =>
      simp [hse] at a1 a2
      exact absurd a2 a1
  · split
    · rename_i h
      simp only [hexCount, List.countP_eq_zero] at h
      refine (escapeLoop_of_spaces s ?_).symm
      intro c hc hse
      have a := h c hc
      simpa [hse] using a
    · rfl

theorem escapeLoop_cons_space (s : Bytes) : escapeLoop (32 :: s) = 43 :: escapeLoop s := by
  simp [escapeLoop]

theorem escapeLoop_cons_hex (c : Byte) (s : Bytes) (hc : c ≠ 32) (h : shouldEscape c = true) :
    escapeLoop (c :: s) =
      37 :: upperhex.getD (c.val >>> 4) 0 :: upperhex.getD (c.val &&& 15) 0 :: escapeLoop s := by
  simp only [escapeLoop, hc, h, if_true, if_false]

theorem escapeLoop_cons_plain (c : Byte) (s : Bytes) (h : shouldEscape c = false) :
    escapeLoop (c :: s) = c :: escapeLoop s := by
  have hc := (unreserved_ne c h).2.2
  simp only [escapeLoop, hc, h, if_false, Bool.false_eq_true]

theorem unescapeCheck_escapeLoop (s : Bytes) :
    ∀ (n : Nat) (hp : Bool), ∃ r, unescapeCheck (escapeLoop s) n hp = .ok r := by
  induction s with
  | nil => intro n hp; exact ⟨_, rfl⟩
  | cons c s ih =>
    intro n hp
    by_cases hc : c = 32
    · subst hc
      rw [escapeLoop_cons_space, unescapeCheck_cons]
      simpa using ih n true
    · cases hse : shouldEscape c with
      | true =>
        obtain ⟨h1, h2, -⟩ := hexDigits_spec c
        rw [escapeLoop_cons_hex c s hc hse, unescapeCheck_cons]
        simp only [if_true, h1, h2, Bool.and_self]
        exact ih (n + 1) hp
      | false =>
        obtain ⟨n37, n43, -⟩ := unreserved_ne c hse
        rw [escapeLoop_cons_plain c s hse, unescapeCheck_cons]
        simp only [n37, n43, if_false]
        exact ih n hp

theorem unescapeLoop_escapeLoop (s : Bytes) : unescapeLoop (escapeLoop s) = some s := by
  induction s with
  | nil => rfl
  | cons c s ih =>
    by_cases hc : c = 32
    · subst hc
      rw [escapeLoop_cons_space, unescapeLoop_cons]
      simp [ih]
    · cases hse : shouldEscape c with
      | true =>
        obtain ⟨-, -, h3⟩ := hexDigits_spec c
        rw [escapeLoop_cons_hex c s hc hse, unescapeLoop_cons]
        simp only [if_true, ih, Option.map_some', h3]
      | false =>
        obtain ⟨n37, n43, -⟩ := unreserved_ne c hse
        rw [escapeLoop_cons_plain c s hse, unescapeLoop_cons]
        simp only [n37, n43, if_false, ih, Option.map_some']

theorem unescapeCheck_mono (t : Bytes) : ∀ (n : Nat) (hp : Bool) (n' : Nat) (hp' : Bool),
    unescapeCheck t n hp = .ok (n', hp') → n ≤ n' ∧ (hp = true → hp' = true) := by
  intro n hp
  induction t, n, hp using unescapeCheck.induct with
  | case1 n hp =>
    intro n' hp' h
    simp only [unescapeCheck, Except.ok.injEq, Prod.mk.injEq] at h
    exact ⟨h.1 ▸ le_refl _, fun e => h.2 ▸ e⟩
  | case2 n hp a b rest hh ih =>
    intro n' hp' h
    rw [unescapeCheck_cons] at h
    simp only [if_true, hh] at h
    have := ih n' hp' h
    exact ⟨by omega, this.2⟩
  | case3 n hp a b rest hh =>
    intro n' hp' h
    rw [unescapeCheck_cons] at h
    simp [hh] at h
  | case4 rest n hp hrest =>
    intro n' hp' h
    rw [unescapeCheck_cons] at h
    simp only [if_true] at h
    cases h
  | case5 rest n hp _ ih =>
    intro n' hp' h
    rw [unescapeCheck_cons] at h
    simp only [Fin.reduceEq, if_false, if_true] at h
    have := ih n' hp' h
    exact ⟨this.1, fun _ => this.2 rfl⟩
  | case6 c rest n hp h37 h43 ih =>
    intro n' hp' h
    rw [unescapeCheck_cons] at h
    simp only [h37, h43, if_false] at h
    exact ih n' hp' h

/-- When the first loop finds neither `%` nor `+`, the second loop would copy `t`. -/
theorem unescapeLoop_of_check_zero (t : Bytes) :
    unescapeCheck t 0 false = .ok (0, false) → unescapeLoop t = some t := by
  induction t with
  | nil => intro _; rfl
  | cons c t ih =>
    intro h
    rw [unescapeCheck_cons] at h
    by_cases h37 : c = 37
    · simp only [h37, if_true] at h
      split at h
      · split at h
        · exact absurd (unescapeCheck_mono _ _ _ _ _ h).1 (by omega)
        · simp at h
      · simp at h
    · by_cases h43 : c = 43
      · simp only [h37, h43, if_true, if_false] at h
        have := (unescapeCheck_mono _ _ _ _ _ h).2 rfl
        simp at this
      · simp only [h37, h43, if_false] at h
        rw [unescapeLoop_cons]
        simp only [h37, h43, if_false, ih h, Option.map_some']

/-- The second loop never indexes past the end of a string the first loop accepted. -/
theorem unescapeLoop_isSome_of_check (t : Bytes) : ∀ (n : Nat) (hp : Bool) (r : Nat × Bool),
    unescapeCheck t n hp = .ok r → (unescapeLoop t).isSome = true := by
  intro n hp
  induction t, n, hp using unescapeCheck.induct with
  | case1 n hp => intro r _; rfl
  | case2 n hp a b rest hh ih =>
    intro r h
    rw [unescapeCheck_cons] at h
    simp only [if_true, hh] at h
    rw [unescapeLoop_cons]
    simp only [if_true, Option.isSome_map']
    exact ih r h
  | case3 n hp a b rest hh =>
    intro r h
    rw [unescapeCheck_cons] at h
    simp [hh] at h
  | case4 rest n hp hrest =>
    intro r h
    rw [unescapeCheck_cons] at h
    simp only [if_true] at h
    cases h
  | case5 rest n hp _ ih =>
    intro r h
    rw [unescapeCheck_cons] at h
    simp only [Fin.reduceEq, if_false, if_true] at h
    rw [unescapeLoop_cons]
    simp only [Fin.reduceEq, if_false, if_true, Option.isSome_map']
    exact ih r h
  | case6 c rest n hp h37 h43 ih =>
    intro r h
    rw [unescapeCheck_cons] at h
    simp only [h37, h43, if_false] at h
    rw [unescapeLoop_cons]
    simp only [h37, h43, if_false, Option.isSome_map']
    exact ih r h

theorem unescapeCheck_ne_indexOutOfRange (t : Bytes) : ∀ (n : Nat) (hp : Bool),
    unescapeCheck t n hp ≠ .error .indexOutOfRange := by
  intro n hp
  induction t, n, hp using unescapeCheck.induct with
  | case1 n hp => simp [unescapeCheck]
  | case2 n hp a b rest hh ih =>
    rw [unescapeCheck_cons]
    simpa only [if_true, hh] using ih
  | case3 n hp a b rest hh =>
    rw [unescapeCheck_cons]
    simp [hh]
  | case4 rest n hp hrest =>
    rw [unescapeCheck_cons]
    simp only [if_true]
    simp
  | case5 rest n hp _ ih =>
    rw [unescapeCheck_cons]
    simpa only [Fin.reduceEq, if_false, if_true] using ih
  | case6 c rest n hp h37 h43 ih =>
    rw [unescapeCheck_cons]
    simpa only [h37, h43, if_false] using ih

/-- Unescaping never fails with an index out of range. -/
theorem QueryUnescape_ne_indexOutOfRange (t : Bytes) :
    QueryUnescape t ≠ .error .indexOutOfRange := by
  unfold QueryUnescape unescape
  cases hr : unescapeCheck t 0 false with
  | error e =>
    simp only
    intro h
    have he : e = .indexOutOfRange := Except.error.inj h
    subst he
    exact unescapeCheck_ne_indexOutOfRange t 0 false hr
  | ok r =>
    obtain ⟨n, hp⟩ := r
    have hs := unescapeLoop_isSome_of_check t 0 false _ hr
    simp only
    split
    · simp
    · cases hl : unescapeLoop t with
      | none => simp [hl] at hs
      | some u => simp

/-- Unescaping an escaped string gives the string back. -/
theorem QueryUnescape_QueryEscape (s : Bytes) : QueryUnescape (QueryEscape s) = .ok s := by
  unfold QueryUnescape QueryEscape unescape
  rw [escape_eq_escapeLoop]
  obtain ⟨⟨n, hp⟩, hr⟩ := unescapeCheck_escapeLoop s 0 false
  rw [hr]
  simp only
  split
  · rename_i h
    obtain ⟨rfl, rfl⟩ := h
    have := unescapeLoop_of_check_zero _ hr
    rw [unescapeLoop_escapeLoop] at this
    rw [← Option.some.inj this]
  · rw [unescapeLoop_escapeLoop]

/-- Escaping is injective. -/
theorem QueryEscape_injective : Function.Injective QueryEscape := by
  intro a b h
  have := QueryUnescape_QueryEscape a
  rw [h, QueryUnescape_QueryEscape] at this
  exact (Except.ok.inj this).symm

/-! ## The encoding, byte by byte -/

set_option maxRecDepth 100000 in
theorem escapeLoop_cons_eq_queryEscapeByte : ∀ c : Byte,
    (if c = 32 then [43]
     else if shouldEscape c then
       [37, upperhex.getD (c.val >>> 4) 0, upperhex.getD (c.val &&& 15) 0]
     else [c]) = queryEscapeByte c := by
  decide

theorem escapeLoop_eq_flatMap (s : Bytes) : escapeLoop s = s.flatMap queryEscapeByte := by
  induction s with
  | nil => rfl
  | cons c s ih =>
    rw [List.flatMap_cons, ← escapeLoop_cons_eq_queryEscapeByte c, ← ih]
    by_cases hc : c = 32
    · simp [escapeLoop, hc]
    · cases hse : shouldEscape c <;> simp [escapeLoop, hc, hse]

set_option maxRecDepth 100000 in
theorem queryEscapeByte_all_safe : ∀ c : Byte,
    (queryEscapeByte c).all (fun x => decide (x ≠ 47 ∧ x ≠ 0)) = true := by
  decide

theorem queryEscapeByte_safe (c : Byte) : ∀ x ∈ queryEscapeByte c, x ≠ 47 ∧ x ≠ 0 := by
  intro x hx
  have := List.all_eq_true.mp (queryEscapeByte_all_safe c) x hx
  simpa using this

theorem QueryEscape_safe (id : Bytes) : ∀ x ∈ QueryEscape id, x ≠ 47 ∧ x ≠ 0 := by
  intro x hx
  rw [QueryEscape, escape_eq_escapeLoop, escapeLoop_eq_flatMap, List.mem_flatMap] at hx
  obtain ⟨c, -, hc⟩ := hx
  exact queryEscapeByte_safe c x hc

/-! ## Malformed escapes -/

theorem ishex_ne_pct (a : Byte) (h : ishex a = true) : a ≠ 37 := by
  intro e; subst e; revert h; decide

theorem hasBadPercent_cons (c : Byte) (rest : Bytes) :
    hasBadPercent (c :: rest) = ((decide (c = 37) && !startsWithTwoHex rest) || hasBadPercent rest) :=
  rfl

/-- The first loop of `unescape` rejects a string exactly when some `%` in it
is not followed by two hexadecimal digits. -/
theorem unescapeCheck_error_iff (t : Bytes) : ∀ (n : Nat) (hp : Bool),
    (∃ e, unescapeCheck t n hp = .error e) ↔ hasBadPercent t = true := by
  intro n hp
  induction t, n, hp using unescapeCheck.induct with
  | case1 n hp => simp [unescapeCheck, hasBadPercent]
  | case2 n hp a b rest hh ih =>
    rw [unescapeCheck_cons]
    simp only [if_true, hh]
    rw [ih]
    have ha : a ≠ 37 := ishex_ne_pct a (by simp at hh; exact hh.1)
    have hb : b ≠ 37 := ishex_ne_pct b (by simp at hh; exact hh.2)
    simp [hasBadPercent_cons, startsWithTwoHex, ha, hb, hh]
  | case3 n hp a b rest hh =>
    rw [unescapeCheck_cons]
    simp [hh, hasBadPercent_cons, startsWithTwoHex]
  | case4 rest n hp hrest =>
    rw [unescapeCheck_cons]
    have : startsWithTwoHex rest = false := by
      match rest, hrest with
      | [], _ => rfl
      | [_], _ => rfl
      | a :: b :: r, h => exact absurd rfl (fun e => h a b r e)
    simp only [if_true, hasBadPercent_cons, this]
    constructor
    · intro _; simp
    · intro _; exact ⟨_, rfl⟩
  | case5 rest n hp _ ih =>
    rw [unescapeCheck_cons]
    simp only [Fin.reduceEq, if_false, if_true]
    rw [ih]
    simp [hasBadPercent_cons]
  | case6 c rest n hp h37 h43 ih =>
    rw [unescapeCheck_cons]
    simp only [h37, h43, if_false]
    rw [ih]
    simp [hasBadPercent_cons, h37]

theorem QueryUnescape_error_iff (t : Bytes) :
    (∃ e, QueryUnescape t = .error e) ↔ hasBadPercent t = true := by
  rw [← unescapeCheck_error_iff t 0 false]
  unfold QueryUnescape unescape
  cases hr : unescapeCheck t 0 false with
  | error e => simp
  | ok r =>
    obtain ⟨n, hp⟩ := r
    have hs := unescapeLoop_isSome_of_check t 0 false _ hr
    simp only
    split
    · simp
    · cases hl : unescapeLoop t with
      | none => simp [hl] at hs
      | some u => simp

/-! ## Paths and file names -/

/-- The name of the file that holds the record `id`. -/
theorem idToFname_eq (s : Store) (id : Bytes) :
    s.idToFname id = s.dir ++ [47] ++ (storeIDPrefix ++ QueryEscape id) := by
  simp [Store.idToFname, List.append_assoc]

theorem splitPath_join (d n : Bytes) (h : (47 : Byte) ∉ n) :
    splitPath (d ++ [47] ++ n) = (d, n) := by
  have hmem : (47 : Byte) ∈ d ++ [47] ++ n := by simp
  have hrev : (d ++ [47] ++ n).reverse = n.reverse ++ (47 :: d.reverse) := by simp
  have hall : ∀ a ∈ n.reverse, (fun c : Byte => decide (c ≠ 47)) a = true := by
    intro a ha
    have : a ∈ n := List.mem_reverse.mp ha
    simp only [decide_eq_true_eq]
    intro e; exact h (e ▸ this)
  unfold splitPath
  rw [if_pos hmem, hrev, List.takeWhile_append_of_pos hall, List.dropWhile_append_of_pos hall]
  simp

theorem name_no_slash (id : Bytes) : (47 : Byte) ∉ storeIDPrefix ++ QueryEscape id := by
  intro h
  rcases List.mem_append.mp h with h | h
  · revert h; decide
  · exact (QueryEscape_safe id _ h).1 rfl

theorem splitPath_idToFname (s : Store) (id : Bytes) :
    splitPath (s.idToFname id) = (s.dir, storeIDPrefix ++ QueryEscape id) := by
  rw [idToFname_eq]
  exact splitPath_join _ _ (name_no_slash id)

theorem name_injective (id id' : Bytes)
    (h : storeIDPrefix ++ QueryEscape id = storeIDPrefix ++ QueryEscape id') : id = id' :=
  QueryEscape_injective (List.append_cancel_left h)

/-! ## Directory entries -/

theorem findEntry_setEntry_self (name : Bytes) (node : Node) (es : List (Bytes × Node)) :
    findEntry name (setEntry name node es) = some node := by
  simp [setEntry, findEntry]

theorem findEntry_cons (n k : Bytes) (v : Node) (es : List (Bytes × Node)) :
    findEntry n ((k, v) :: es) = if k = n then some v else findEntry n es := rfl

theorem findEntry_filter_ne (name n : Bytes) (es : List (Bytes × Node)) (h : n ≠ name) :
    findEntry n (es.filter (fun e => decide (e.1 ≠ name))) = findEntry n es := by
  induction es with
  | nil => rfl
  | cons e es ih =>
    obtain ⟨k, v⟩ := e
    by_cases hk : k = name
    · have hkn : k ≠ n := fun e => h (e ▸ hk)
      rw [List.filter_cons_of_neg (by simp [hk]), findEntry_cons, if_neg hkn, ih]
    · rw [List.filter_cons_of_pos (by simp [hk]), findEntry_cons, findEntry_cons, ih]

theorem findEntry_setEntry_ne (name n : Bytes) (node : Node) (es : List (Bytes × Node))
    (h : n ≠ name) : findEntry n (setEntry name node es) = findEntry n es := by
  have h' : name ≠ n := fun e => h e.symm
  simp only [setEntry, findEntry, h', if_false]
  exact findEntry_filter_ne name n es h

theorem findEntry_mem (n : Bytes) (node : Node) (es : List (Bytes × Node))
    (h : findEntry n es = some node) : (n, node) ∈ es := by
  induction es with
  | nil => simp [findEntry] at h
  | cons e es ih =>
    obtain ⟨k, v⟩ := e
    by_cases hk : k = n
    · simp only [findEntry, hk, if_true, Option.some.injEq] at h
      simp [hk, h]
    · simp only [findEntry, hk, if_false] at h
      exact List.mem_cons_of_mem _ (ih h)

theorem findEntry_isSome_of_mem (n : Bytes) (node : Node) (es : List (Bytes × Node))
    (h : (n, node) ∈ es) : ∃ node', findEntry n es = some node' := by
  induction es with
  | nil => simp at h
  | cons e es ih =>
    obtain ⟨k, v⟩ := e
    by_cases hk : k = n
    · exact ⟨v, by simp [findEntry, hk]⟩
    · have : (n, node) ∈ es := by
        rcases List.mem_cons.mp h with h | h
        · exact absurd (congrArg Prod.fst h).symm hk
        · exact h
      obtain ⟨node', h'⟩ := ih this
      exact ⟨node', by simp [findEntry, hk, h']⟩

/-! ## The effect of `Put` -/

/-- A `Put` that returns no error found the store directory present and
replaced it by the same directory with the one entry for `id` set. -/
theorem Put_ok {M : Type} (c : Codec M) (s : Store) (fs : FileSys) (id : Bytes) (m : M)
    (h : (s.Put c fs id m).2 = none) :
    ∃ es, fs s.dir = .present es ∧
      (s.Put c fs id m).1 s.dir =
        .present (setEntry (storeIDPrefix ++ QueryEscape id)
          (.file (c.MarshalTextString m) 0o660) es) ∧
      ∀ d, d ≠ s.dir → (s.Put c fs id m).1 d = fs d := by
  unfold Store.Put WriteTextMessage WriteFile at h ⊢
  rw [splitPath_idToFname] at h ⊢
  simp only at h ⊢
  cases hd : fs s.dir with
  | absent => simp [hd] at h
  | notDir => simp [hd] at h
  | denied => simp [hd] at h
  | present es =>
    refine ⟨es, rfl, ?_⟩
    simp only [hd] at h ⊢
    by_cases hlen : NAME_MAX < (storeIDPrefix ++ QueryEscape id).length
    · rw [if_pos hlen] at h
      simp at h
    · simp only [hlen, if_false] at h ⊢
      cases hf : findEntry (storeIDPrefix ++ QueryEscape id) es with
      | none =>
        refine ⟨by simp, ?_⟩
        intro d hne
        simp [hne]
      | some node =>
        cases node with
        | dir => simp [hf] at h
        | file data perm =>
          refine ⟨by simp, ?_⟩
          intro d hne
          simp [hne]

/-- A `Put` that returns no error wrote a file whose name is within the limit. -/
theorem Put_ok_length {M : Type} (c : Codec M) (s : Store) (fs : FileSys) (id : Bytes) (m : M)
    (h : (s.Put c fs id m).2 = none) :
    (storeIDPrefix ++ QueryEscape id).length ≤ NAME_MAX := by
  unfold Store.Put WriteTextMessage WriteFile at h
  rw [splitPath_idToFname] at h
  simp only at h
  cases hd : fs s.dir with
  | absent => simp [hd] at h
  | notDir => simp [hd] at h
  | denied => simp [hd] at h
  | present es =>
    simp only [hd] at h
    by_cases hlen : NAME_MAX < (storeIDPrefix ++ QueryEscape id).length
    · rw [if_pos hlen] at h
      simp at h
    · exact Nat.le_of_not_lt hlen

/-- A `Put` that returns an error leaves the file system unchanged. -/
theorem Put_error {M : Type} (c : Codec M) (s : Store) (fs : FileSys) (id : Bytes) (m : M)
    (h : (s.Put c fs id m).2 ≠ none) : (s.Put c fs id m).1 = fs := by
  unfold Store.Put WriteTextMessage WriteFile at h ⊢
  rw [splitPath_idToFname] at h ⊢
  simp only at h ⊢
  cases hd : fs s.dir with
  | absent => rfl
  | notDir => rfl
  | denied => rfl
  | present es =>
    simp only [hd] at h ⊢
    by_cases hlen : NAME_MAX < (storeIDPrefix ++ QueryEscape id).length
    · simp only [hlen, if_true]
    · simp only [hlen, if_false] at h ⊢
      cases hf : findEntry (storeIDPrefix ++ QueryEscape id) es with
      | none => simp [hf] at h
      | some node =>
        cases node with
        | dir => rfl
        | file data perm => simp [hf] at h

/-! ## Reading a record file -/

theorem stat_idToFname (s : Store) (fs : FileSys) (id : Bytes) :
    stat fs (s.idToFname id) =
      match fs s.dir with
      | .absent => .error .ENOENT
      | .notDir => .error .ENOTDIR
      | .denied => .error .EACCES
      | .present entries =>
        if NAME_MAX < (storeIDPrefix ++ QueryEscape id).length then .error .ENAMETOOLONG
        else
          match findEntry (storeIDPrefix ++ QueryEscape id) entries with
          | none => .error .ENOENT
          | some node => .ok node := by
  unfold stat
  simp only [splitPath_idToFname]

/-- After a `Put` that returns no error the record file holds exactly the
text form of the message and can be read. -/
theorem ReadFile_Put {M : Type} (c : Codec M) (s : Store) (fs : FileSys) (id : Bytes) (m : M)
    (h : (s.Put c fs id m).2 = none) :
    ReadFile (s.Put c fs id m).1 (s.idToFname id) = .ok (c.MarshalTextString m) := by
  obtain ⟨es, -, h2, -⟩ := Put_ok c s fs id m h
  have hlen : ¬ NAME_MAX < (storeIDPrefix ++ QueryEscape id).length :=
    Nat.not_lt.mpr (Put_ok_length c s fs id m h)
  unfold ReadFile
  rw [stat_idToFname, h2]
  simp only [hlen, if_false, findEntry_setEntry_self]
  rfl

/-- A `Put` changes what a path names only for the path of its own record file. -/
theorem stat_Put_frame {M : Type} (c : Codec M) (s : Store) (fs : FileSys) (id : Bytes) (m : M)
    (p : Bytes) (hp : splitPath p ≠ splitPath (s.idToFname id)) :
    stat (s.Put c fs id m).1 p = stat fs p := by
  cases h : (s.Put c fs id m).2 with
  | some e => rw [Put_error c s fs id m (by simp [h])]
  | none =>
    obtain ⟨es, h1, h2, h3⟩ := Put_ok c s fs id m h
    rw [splitPath_idToFname] at hp
    unfold stat
    by_cases hd : (splitPath p).1 = s.dir
    · have hn : (splitPath p).2 ≠ storeIDPrefix ++ QueryEscape id := by
        intro e
        exact hp (Prod.ext hd e)
      rw [hd, h1, h2]
      simp only [findEntry_setEntry_ne _ _ _ _ hn]
    · rw [h3 _ hd]

theorem Get_congr {M : Type} (c : Codec M) (s : Store) (fs fs' : FileSys) (id : Bytes) (m : M)
    (h : stat fs' (s.idToFname id) = stat fs (s.idToFname id)) :
    s.Get c fs' id m = s.Get c fs id m := by
  unfold Store.Get ReadTextMessage ReadFile
  rw [h]

/-! ## Get and Put -/

theorem unaryCodec_roundtrip (r pb : Nat) :
    unaryCodec.UnmarshalText (unaryCodec.MarshalTextString r) pb = (r, none) := by
  simp [unaryCodec]

/-- C1 (round trip, overwrite included): from any store state, a `Put(id, r)`
that returns no error followed by `Get(id, m)` returns found, no error, and
the record `r`, when the text codec round-trips. -/
theorem put_get_roundtrip {M : Type} (c : Codec M) (s : Store) (fs : FileSys) (id : Bytes)
    (r m : M)
    (hcodec : ∀ (r pb : M), c.UnmarshalText (c.MarshalTextString r) pb = (r, none))
    (hput : (s.Put c fs id r).2 = none) :
    s.Get c (s.Put c fs id r).1 id m = (true, none, r) := by
  unfold Store.Get ReadTextMessage
  rw [ReadFile_Put c s fs id r hput]
  simp [hcodec, IsNotExist]

/-- Witness for C1: the record 5 is stored under `a/b`, overwritten by 3, and read back. -/
theorem put_get_roundtrip_witness :
    (exampleStore.Put unaryCodec (exampleStore.Put unaryCodec exampleFS [97, 47, 98] 5).1
        [97, 47, 98] 3).2 = none ∧
    exampleStore.Get unaryCodec
      (exampleStore.Put unaryCodec (exampleStore.Put unaryCodec exampleFS [97, 47, 98] 5).1
        [97, 47, 98] 3).1 [97, 47, 98] 0 = (true, none, 3) :=
  ⟨by decide, put_get_roundtrip unaryCodec exampleStore _ [97, 47, 98] 3 0
    unaryCodec_roundtrip (by decide)⟩

theorem Get_of_not_exist {M : Type} (c : Codec M) (s : Store) (fs : FileSys) (id : Bytes)
    (m : M) (h : stat fs (s.idToFname id) = .error .ENOENT) :
    s.Get c fs id m = (false, none, m) := by
  unfold Store.Get ReadTextMessage ReadFile
  rw [h]
  simp [IsNotExist]

theorem findEntry_eq_none (n : Bytes) (es : List (Bytes × Node)) (h : ∀ e ∈ es, e.1 ≠ n) :
    findEntry n es = none := by
  cases hf : findEntry n es with
  | none => rfl
  | some node => exact absurd rfl (h _ (findEntry_mem n node es hf))

theorem Get_of_stat_error {M : Type} (c : Codec M) (s : Store) (fs : FileSys) (id : Bytes)
    (m : M) (e : Errno) (he : e ≠ .ENOENT) (h : stat fs (s.idToFname id) = .error e) :
    s.Get c fs id m = (false, some (.PathError e), m) := by
  unfold Store.Get ReadTextMessage ReadFile
  rw [h]
  cases e <;> simp [IsNotExist] at he ⊢

set_option maxRecDepth 100000 in
/-- C2 as stated fails: the example directory exists and holds no entry for
the identifier made of 254 letters `a`, which was never written, but its file
name is 256 bytes long, and `Get` returns not found together with the error
`ENAMETOOLONG`. -/
theorem get_long_name_counterexample :
    exampleFS exampleStore.dir = .present [([108, 111, 99, 107], .file [] 0o600)] ∧
    findEntry (storeIDPrefix ++ QueryEscape (List.replicate 254 97))
      [([108, 111, 99, 107], .file [] 0o600)] = none ∧
    (storeIDPrefix ++ QueryEscape (List.replicate 254 97)).length = 256 ∧
    exampleStore.Get unaryCodec exampleFS (List.replicate 254 97) 7
      = (false, some (.PathError .ENAMETOOLONG), 7) := by
  refine ⟨rfl, ?_, ?_, ?_⟩
  · decide
  · decide
  · decide

/-- C2 amended (not found): when the store directory exists, is accessible and
holds no entry named `s:` + escape(id), and that name is at most `NAME_MAX`
bytes long, or when the store directory itself does not exist, `Get(id, m)`
returns not found and no error, and leaves `m` as it was. When the name is
longer than `NAME_MAX`, or the store path is not a directory or is not
accessible, `Get` returns not found together with the error of opening the file. -/
theorem get_not_found {M : Type} (c : Codec M) (s : Store) (fs : FileSys) (id : Bytes) (m : M) :
    ((fs s.dir = .absent ∨
      ∃ es, fs s.dir = .present es ∧ (∀ e ∈ es, e.1 ≠ storeIDPrefix ++ QueryEscape id) ∧
        (storeIDPrefix ++ QueryEscape id).length ≤ NAME_MAX) →
      s.Get c fs id m = (false, none, m)) ∧
    (∀ es, fs s.dir = .present es → NAME_MAX < (storeIDPrefix ++ QueryEscape id).length →
      s.Get c fs id m = (false, some (.PathError .ENAMETOOLONG), m)) ∧
    (fs s.dir = .notDir → s.Get c fs id m = (false, some (.PathError .ENOTDIR), m)) ∧
    (fs s.dir = .denied → s.Get c fs id m = (false, some (.PathError .EACCES), m)) := by
  refine ⟨?_, ?_, ?_, ?_⟩
  · intro h
    apply Get_of_not_exist
    rw [stat_idToFname]
    rcases h with h | ⟨es, h, hes, hlen⟩
    · rw [h]
    · rw [h]
      simp only [Nat.not_lt.mpr hlen, if_false, findEntry_eq_none _ es hes]
  · intro es h hlen
    apply Get_of_stat_error c s fs id m _ (by decide)
    rw [stat_idToFname, h]
    simp only [hlen, if_true]
  · intro h
    apply Get_of_stat_error c s fs id m _ (by decide)
    rw [stat_idToFname, h]
  · intro h
    apply Get_of_stat_error c s fs id m _ (by decide)
    rw [stat_idToFname, h]

/-- Witness for C2: nothing was ever written under `a` in the example
directory, which holds only the file `lock`. -/
theorem get_not_found_witness :
    exampleStore.Get unaryCodec exampleFS [97] 7 = (false, none, 7) :=
  (get_not_found unaryCodec exampleStore exampleFS [97] 7).1
    (Or.inr ⟨[([108, 111, 99, 107], .file [] 0o600)], rfl, by decide, by decide⟩)

/-- C3 as stated fails: with the store directory removed, reading the record
file fails, and `Get` returns not found with a nil error. -/
theorem get_directory_removed_counterexample :
    removedFS exampleStore.dir = .absent ∧
    (ReadTextMessage unaryCodec removedFS (exampleStore.idToFname [97]) 7).2
      = some (.PathError .ENOENT) ∧
    exampleStore.Get unaryCodec removedFS [97] 7 = (false, none, 7) := by
  refine ⟨rfl, rfl, rfl⟩

/-- C3 amended: a failure of reading or decoding the record file that is not a
not-exist error makes `Get` return not found together with that error: a
path that cannot be resolved for another reason than absence, a directory in
the file's place, a file the owner may not read, content the codec rejects.
When the store directory is gone, `Get` returns not found and no error. `Get`
never returns found together with an error. -/
theorem get_failure {M : Type} (c : Codec M) (s : Store) (fs : FileSys) (id : Bytes) (m : M) :
    (∀ err, (ReadTextMessage c fs (s.idToFname id) m).2 = some err →
      IsNotExist (some err) = false →
      (s.Get c fs id m).1 = false ∧ (s.Get c fs id m).2.1 = some err) ∧
    (∀ e, e ≠ .ENOENT → stat fs (s.idToFname id) = .error e →
      s.Get c fs id m = (false, some (.PathError e), m)) ∧
    (stat fs (s.idToFname id) = .ok .dir →
      s.Get c fs id m = (false, some (.PathError .EISDIR), m)) ∧
    (∀ data perm, stat fs (s.idToFname id) = .ok (.file data perm) →
      ownerCanRead perm = false →
      s.Get c fs id m = (false, some (.PathError .EACCES), m)) ∧
    (∀ data perm msg, stat fs (s.idToFname id) = .ok (.file data perm) →
      ownerCanRead perm = true → (c.UnmarshalText data m).2 = some msg →
      s.Get c fs id m = (false, some (.ParseError msg), (c.UnmarshalText data m).1)) ∧
    (fs s.dir = .absent → s.Get c fs id m = (false, none, m)) ∧
    ((s.Get c fs id m).1 = true → (s.Get c fs id m).2.1 = none) := by
  refine ⟨?_, ?_, ?_, ?_, ?_, ?_, ?_⟩
  · intro err h1 h2
    unfold Store.Get
    rw [h1, h2]
    simp
  · intro e he h
    unfold Store.Get ReadTextMessage ReadFile
    rw [h]
    cases e <;> simp [IsNotExist] at he ⊢
  · intro h
    unfold Store.Get ReadTextMessage ReadFile
    rw [h]
    simp [IsNotExist]
  · intro data perm h hr
    unfold Store.Get ReadTextMessage ReadFile
    rw [h]
    simp [IsNotExist, hr]
  · intro data perm msg h hr hm
    unfold Store.Get ReadTextMessage ReadFile
    rw [h]
    simp [IsNotExist, hr, hm]
  · intro h
    apply Get_of_not_exist
    rw [stat_idToFname, h]
  · unfold Store.Get
    split
    · simp
    · intro h
      simpa using h

/-- Witness for C3: in the example directory with damaged entries, `Get`
reports the parse error of `s:1`, the permission error of `s:2` and the
directory error of `s:3`. -/
theorem get_failure_witness :
    exampleStore.Get unaryCodec messyFS [49] 7 = (false, some (.ParseError [98, 97, 100]), 7) ∧
    exampleStore.Get unaryCodec messyFS [50] 7 = (false, some (.PathError .EACCES), 7) ∧
    exampleStore.Get unaryCodec messyFS [51] 7 = (false, some (.PathError .EISDIR), 7) :=
  ⟨(get_failure unaryCodec exampleStore messyFS [49] 7).2.2.2.2.1 [120] 0o660 [98, 97, 100]
      rfl rfl rfl,
   (get_failure unaryCodec exampleStore messyFS [50] 7).2.2.2.1 [49] 0o200 rfl rfl,
   (get_failure unaryCodec exampleStore messyFS [51] 7).2.2.1 rfl⟩

/-- C9 (frame): distinct identifiers have distinct files; a `Put(id, r)`
leaves every directory other than the store's as it was and leaves what every
path other than the file of `id` names as it was; so `Get(id', m)` for another
identifier returns the same result after the `Put` as before it. -/
theorem put_frame {M : Type} (c : Codec M) (s : Store) (fs : FileSys) (id id' : Bytes)
    (r m : M) (hne : id ≠ id') :
    s.idToFname id ≠ s.idToFname id' ∧
    (∀ d, d ≠ s.dir → (s.Put c fs id r).1 d = fs d) ∧
    (∀ p, splitPath p ≠ splitPath (s.idToFname id) →
      stat (s.Put c fs id r).1 p = stat fs p ∧
      ReadFile (s.Put c fs id r).1 p = ReadFile fs p) ∧
    s.Get c (s.Put c fs id r).1 id' m = s.Get c fs id' m := by
  have hsplit : splitPath (s.idToFname id') ≠ splitPath (s.idToFname id) := by
    rw [splitPath_idToFname, splitPath_idToFname]
    intro e
    exact hne (name_injective _ _ (congrArg Prod.snd e)).symm
  refine ⟨?_, ?_, ?_, ?_⟩
  · intro e
    exact hsplit (by rw [e])
  · intro d hd
    cases h : (s.Put c fs id r).2 with
    | some e => rw [Put_error c s fs id r (by simp [h])]
    | none =>
      obtain ⟨es, -, -, h3⟩ := Put_ok c s fs id r h
      exact h3 d hd
  · intro p hp
    have := stat_Put_frame c s fs id r p hp
    refine ⟨this, ?_⟩
    unfold ReadFile
    rw [this]
  · exact Get_congr c s fs _ id' m (stat_Put_frame c s fs id r _ hsplit)

/-- Witness for C9: writing `a/b` does not disturb the record `a%2Fb` read
before and after. -/
theorem put_frame_witness :
    exampleStore.idToFname [97, 47, 98] ≠ exampleStore.idToFname [97, 37, 50, 70, 98] ∧
    exampleStore.Get unaryCodec (exampleStore.Put unaryCodec messyFS [97, 37, 50, 70, 98] 4).1
      [97, 47, 98] 0 = (true, none, 2) :=
  have h := put_frame unaryCodec exampleStore messyFS [97, 37, 50, 70, 98] [97, 47, 98] 4 0
    (by decide)
  ⟨fun e => h.1 e.symm, h.2.2.2.trans rfl⟩

/-! ## File names -/

/-- C7 (no path traversal): the file of any identifier is `dir + "/" + name`
with `name = "s:" + escape(id)`; the name holds no `/` and no NUL byte and is
neither `.` nor `..`, so the path names a direct child of the store directory. -/
theorem idToFname_direct_child (s : Store) (id : Bytes) :
    s.idToFname id = s.dir ++ [47] ++ (storeIDPrefix ++ QueryEscape id) ∧
    (47 : Byte) ∉ storeIDPrefix ++ QueryEscape id ∧
    (0 : Byte) ∉ storeIDPrefix ++ QueryEscape id ∧
    storeIDPrefix ++ QueryEscape id ≠ [46] ∧
    storeIDPrefix ++ QueryEscape id ≠ [46, 46] ∧
    splitPath (s.idToFname id) = (s.dir, storeIDPrefix ++ QueryEscape id) := by
  refine ⟨idToFname_eq s id, name_no_slash id, ?_, ?_, ?_, splitPath_idToFname s id⟩
  · intro h
    rcases List.mem_append.mp h with h | h
    · revert h; decide
    · exact (QueryEscape_safe id _ h).2 rfl
  · simp [storeIDPrefix]
  · simp [storeIDPrefix]

/-- C6 as stated fails: the space of the identifier `a b` is written `+` in
the file name, where the claimed encoding would write `%20`. -/
theorem escape_space_counterexample :
    exampleStore.idToFname [97, 32, 98] = [100, 47, 115, 58, 97, 43, 98] ∧
    exampleStore.dir ++ [47] ++ storeIDPrefix ++ [97, 32, 98].flatMap specEscapeByte
      = [100, 47, 115, 58, 97, 37, 50, 48, 98] := by
  decide

/-- C6 amended: the text after `s:` in the file name is the identifier encoded
byte by byte: alphanumerics and `-_.~` pass through, a space becomes `+`, and
every other byte, `/` and `%` included, becomes `%XX` in uppercase hexadecimal. -/
theorem idToFname_encoding (s : Store) (id : Bytes) :
    s.idToFname id = s.dir ++ [47] ++ storeIDPrefix ++ id.flatMap queryEscapeByte ∧
    queryEscapeByte 47 = [37, 50, 70] ∧ queryEscapeByte 37 = [37, 50, 53] ∧
    queryEscapeByte 32 = [43] := by
  refine ⟨?_, by decide, by decide, by decide⟩
  rw [Store.idToFname, QueryEscape, escape_eq_escapeLoop, escapeLoop_eq_flatMap]

/-! ## Listing -/

theorem listLoop_eq (l : List Bytes) : ∀ acc, listLoop l acc = acc ++ l.filterMap entryID := by
  induction l with
  | nil => intro acc; simp [listLoop]
  | cons e l ih =>
    intro acc
    unfold listLoop
    by_cases hp : storeIDPrefix.isPrefixOf e = true
    · cases hq : QueryUnescape (e.drop storeIDPrefix.length) with
      | error err => simp [hp, hq, ih, entryID, List.filterMap_cons]
      | ok x => simp [hp, hq, ih, entryID, List.filterMap_cons]
    · simp [hp, ih, entryID, List.filterMap_cons]

theorem ListIDs_present (s : Store) (fs : FileSys) (es : List (Bytes × Node))
    (h : fs s.dir = .present es) :
    s.ListIDs fs = .ok
      (((es.map Prod.fst).insertionSort (fun a b => nameLE a b = true)).filterMap entryID) := by
  unfold Store.ListIDs ReadDir
  rw [h]
  simp [listLoop_eq]

theorem ListIDs_perm (s : Store) (fs : FileSys) (es : List (Bytes × Node))
    (h : fs s.dir = .present es) :
    ∃ ids, s.ListIDs fs = .ok ids ∧ ids.Perm ((es.map Prod.fst).filterMap entryID) :=
  ⟨_, ListIDs_present s fs es h, (List.perm_insertionSort _ _).filterMap _⟩

theorem entryID_name (rem : Bytes) :
    entryID (storeIDPrefix ++ rem) =
      match QueryUnescape rem with
      | .ok id => some id
      | .error _ => none := by
  have h1 : storeIDPrefix.isPrefixOf (storeIDPrefix ++ rem) = true := by
    simp [storeIDPrefix, List.isPrefixOf]
  have h2 : (storeIDPrefix ++ rem).drop storeIDPrefix.length = rem := by
    simp
  unfold entryID
  rw [h1, h2]
  rfl

theorem entryID_escape (id : Bytes) : entryID (storeIDPrefix ++ QueryEscape id) = some id := by
  rw [entryID_name, QueryUnescape_QueryEscape]

theorem isPrefixOf_storeIDPrefix (n : Bytes) (h : storeIDPrefix.isPrefixOf n = true) :
    n = storeIDPrefix ++ n.drop storeIDPrefix.length := by
  match n, h with
  | [], h => simp [storeIDPrefix, List.isPrefixOf] at h
  | [a], h => simp [storeIDPrefix, List.isPrefixOf] at h
  | a :: b :: r, h =>
    simp [storeIDPrefix, List.isPrefixOf] at h
    simp [storeIDPrefix, h.1, h.2]

theorem entryID_eq_some (n x : Bytes) (h : entryID n = some x) :
    ∃ rem, n = storeIDPrefix ++ rem ∧ QueryUnescape rem = .ok x := by
  unfold entryID at h
  by_cases hp : storeIDPrefix.isPrefixOf n = true
  · rw [if_pos hp] at h
    refine ⟨n.drop storeIDPrefix.length, isPrefixOf_storeIDPrefix n hp, ?_⟩
    cases hq : QueryUnescape (n.drop storeIDPrefix.length) with
    | error e => simp [hq] at h
    | ok y =>
      simp [hq] at h
      rw [h]
  · rw [if_neg hp] at h
    cases h

theorem mem_ListIDs (s : Store) (fs : FileSys) (es : List (Bytes × Node)) (ids : List Bytes)
    (h : fs s.dir = .present es) (hl : s.ListIDs fs = .ok ids) (x : Bytes) :
    x ∈ ids ↔ ∃ e ∈ es, entryID e.1 = some x := by
  obtain ⟨ids', h1, h2⟩ := ListIDs_perm s fs es h
  rw [hl] at h1
  cases h1
  rw [h2.mem_iff, List.mem_filterMap]
  constructor
  · rintro ⟨n, hn, hx⟩
    obtain ⟨e, he, rfl⟩ := List.mem_map.mp hn
    exact ⟨e, he, hx⟩
  · rintro ⟨e, he, hx⟩
    exact ⟨e.1, List.mem_map_of_mem _ he, hx⟩

/-- C4 (identifier round trip): after a `Put(id, r)` that returns no error,
`ListIDs` succeeds and lists `id`; the entry name `s:` + escape(id) has the
prefix and its remainder unescapes to `id` itself. -/
theorem put_then_list {M : Type} (c : Codec M) (s : Store) (fs : FileSys) (id : Bytes) (r : M)
    (hput : (s.Put c fs id r).2 = none) :
    (∃ ids, s.ListIDs (s.Put c fs id r).1 = .ok ids ∧ id ∈ ids) ∧
    s.idToFname id = s.dir ++ [47] ++ (storeIDPrefix ++ QueryEscape id) ∧
    storeIDPrefix.isPrefixOf (storeIDPrefix ++ QueryEscape id) = true ∧
    QueryUnescape ((storeIDPrefix ++ QueryEscape id).drop storeIDPrefix.length) = .ok id := by
  obtain ⟨es, -, h2, -⟩ := Put_ok c s fs id r hput
  refine ⟨?_, idToFname_eq s id, by simp [storeIDPrefix, List.isPrefixOf], ?_⟩
  · refine ⟨_, ListIDs_present s _ _ h2, ?_⟩
    rw [(List.perm_insertionSort _ _).filterMap entryID |>.mem_iff, List.mem_filterMap]
    exact ⟨storeIDPrefix ++ QueryEscape id, by simp [setEntry], entryID_escape id⟩
  · rw [List.drop_left]
    exact QueryUnescape_QueryEscape id

/-- Witness for C4: the identifier `a/b %é` (with a slash, a space, a percent
sign and a non-ASCII byte) is listed unchanged. -/
theorem put_then_list_witness :
    (exampleStore.Put unaryCodec exampleFS [97, 47, 98, 32, 37, 233] 2).2 = none ∧
    exampleStore.ListIDs (exampleStore.Put unaryCodec exampleFS [97, 47, 98, 32, 37, 233] 2).1
      = .ok [[97, 47, 98, 32, 37, 233]] ∧
    QueryUnescape ((storeIDPrefix ++ QueryEscape [97, 47, 98, 32, 37, 233]).drop
      storeIDPrefix.length) = .ok [97, 47, 98, 32, 37, 233] :=
  ⟨by decide, rfl,
    (put_then_list unaryCodec exampleStore exampleFS [97, 47, 98, 32, 37, 233] 2
      (by decide)).2.2.2⟩

theorem mem_setEntry (n : Bytes) (v : Node) (es : List (Bytes × Node)) (e : Bytes × Node) :
    e ∈ setEntry n v es ↔ e = (n, v) ∨ (e ∈ es ∧ e.1 ≠ n) := by
  simp [setEntry, List.mem_filter]

theorem entryID_of_foreign (n : Bytes) (h : storeIDPrefix.isPrefixOf n = false) :
    entryID n = none := by
  simp [entryID, h]

theorem isPrefixOf_of_entryID (n x : Bytes) (h : entryID n = some x) :
    storeIDPrefix.isPrefixOf n = true := by
  cases hp : storeIDPrefix.isPrefixOf n with
  | true => rfl
  | false => rw [entryID_of_foreign n hp] at h; cases h

theorem isPrefixOf_name (rem : Bytes) : storeIDPrefix.isPrefixOf (storeIDPrefix ++ rem) = true := by
  simp [storeIDPrefix, List.isPrefixOf]

/-- C5 (listing completeness and isolation): in a directory that holds no
entry with the prefix `s:`, after `Put(id1, r1)` and `Put(id2, r2)` that
return no error, `ListIDs` returns without error a list whose elements are
exactly `id1` and `id2`; each element comes from an entry with the prefix. -/
theorem put_put_list {M : Type} (c : Codec M) (s : Store) (fs : FileSys)
    (es : List (Bytes × Node)) (id1 id2 : Bytes) (r1 r2 : M)
    (hdir : fs s.dir = .present es)
    (hclean : ∀ e ∈ es, storeIDPrefix.isPrefixOf e.1 = false)
    (h1 : (s.Put c fs id1 r1).2 = none)
    (h2 : (s.Put c (s.Put c fs id1 r1).1 id2 r2).2 = none) :
    ∃ ids, s.ListIDs (s.Put c (s.Put c fs id1 r1).1 id2 r2).1 = .ok ids ∧
      (∀ x, x ∈ ids ↔ x = id1 ∨ x = id2) ∧
      (∀ es', (s.Put c (s.Put c fs id1 r1).1 id2 r2).1 s.dir = .present es' →
        ∀ x ∈ ids, ∃ e ∈ es', storeIDPrefix.isPrefixOf e.1 = true ∧
          QueryUnescape (e.1.drop storeIDPrefix.length) = .ok x) := by
  obtain ⟨es0, a1, a2, -⟩ := Put_ok c s fs id1 r1 h1
  rw [hdir] at a1
  cases a1
  obtain ⟨es1, b1, b2, -⟩ := Put_ok c s _ id2 r2 h2
  rw [a2] at b1
  cases b1
  obtain ⟨ids, hl, -⟩ := ListIDs_perm s _ _ b2
  refine ⟨ids, hl, ?_, ?_⟩
  · intro x
    rw [mem_ListIDs s _ _ ids b2 hl x]
    constructor
    · rintro ⟨e, he, hx⟩
      rcases (mem_setEntry _ _ _ e).mp he with rfl | ⟨he, -⟩
      · rw [entryID_escape] at hx
        exact Or.inr (Option.some.inj hx).symm
      · rcases (mem_setEntry _ _ _ e).mp he with rfl | ⟨he, -⟩
        · rw [entryID_escape] at hx
          exact Or.inl (Option.some.inj hx).symm
        · rw [entryID_of_foreign _ (hclean e he)] at hx
          cases hx
    · rintro (rfl | rfl)
      · by_cases hid : x = id2
        · subst hid
          exact ⟨_, (mem_setEntry _ _ _ _).mpr (Or.inl rfl), entryID_escape x⟩
        · refine ⟨(storeIDPrefix ++ QueryEscape x, .file (c.MarshalTextString r1) 0o660),
            (mem_setEntry _ _ _ _).mpr (Or.inr ⟨(mem_setEntry _ _ _ _).mpr (Or.inl rfl), ?_⟩),
            entryID_escape x⟩
          intro e
          exact hid (name_injective _ _ e)
      · exact ⟨_, (mem_setEntry _ _ _ _).mpr (Or.inl rfl), entryID_escape x⟩
  · intro es' hes' x hx
    rw [b2] at hes'
    cases hes'
    obtain ⟨e, he, hex⟩ := (mem_ListIDs s _ _ ids b2 hl x).mp hx
    refine ⟨e, he, isPrefixOf_of_entryID _ _ hex, ?_⟩
    obtain ⟨rem, hn, hq⟩ := entryID_eq_some _ _ hex
    rw [hn, List.drop_left]
    exact hq

/-- Witness for C5: the directory holds the unrelated file `lock`; after two
writes the listing is exactly the two identifiers. -/
theorem put_put_list_witness :
    exampleStore.ListIDs
      (exampleStore.Put unaryCodec (exampleStore.Put unaryCodec exampleFS [98, 47] 1).1 [97] 2).1
      = .ok [[97], [98, 47]] ∧
    ∃ ids, exampleStore.ListIDs
      (exampleStore.Put unaryCodec (exampleStore.Put unaryCodec exampleFS [98, 47] 1).1 [97] 2).1
        = .ok ids ∧ ∀ x, x ∈ ids ↔ x = [98, 47] ∨ x = [97] :=
  ⟨rfl,
    (put_put_list unaryCodec exampleStore exampleFS [([108, 111, 99, 107], .file [] 0o600)]
      [98, 47] [97] 1 2 rfl (by decide) (by decide) (by decide)).imp (fun _ h => ⟨h.1, h.2.1⟩)⟩

/-- C8 (corrupt entry tolerance): in a readable store directory, an entry
named `s:` followed by text in which some `%` is not followed by two
hexadecimal digits adds nothing to the listing: `ListIDs` returns no error and
the same identifiers as for the directory without that entry, and every entry
`s:` + remainder whose remainder unescapes is listed under its identifier. -/
theorem list_skips_malformed (s : Store) (fs fs' : FileSys) (es : List (Bytes × Node))
    (bad : Bytes)
    (hdir : fs s.dir = .present es)
    (hdir' : fs' s.dir = .present (es.filter (fun e => decide (e.1 ≠ storeIDPrefix ++ bad))))
    (hbad : hasBadPercent bad = true) :
    ∃ ids ids', s.ListIDs fs = .ok ids ∧ s.ListIDs fs' = .ok ids' ∧ ids.Perm ids' ∧
      (∀ e ∈ es, ∀ rem id, e.1 = storeIDPrefix ++ rem → QueryUnescape rem = .ok id → id ∈ ids) := by
  obtain ⟨ids, hl, hp⟩ := ListIDs_perm s fs es hdir
  obtain ⟨ids', hl', hp'⟩ := ListIDs_perm s fs' _ hdir'
  have hnone : entryID (storeIDPrefix ++ bad) = none := by
    obtain ⟨e, he⟩ := (QueryUnescape_error_iff bad).mpr hbad
    rw [entryID_name, he]
  have heq : (es.map Prod.fst).filterMap entryID =
      ((es.filter (fun e => decide (e.1 ≠ storeIDPrefix ++ bad))).map Prod.fst).filterMap
        entryID := by
    clear hdir hdir' hl hp hl' hp'
    induction es with
    | nil => rfl
    | cons e es ih =>
      by_cases hn : e.1 = storeIDPrefix ++ bad
      · rw [List.filter_cons_of_neg (by simp [hn]), List.map_cons, List.filterMap_cons, hn,
          hnone]
        exact ih
      · rw [List.filter_cons_of_pos (by simp [hn]), List.map_cons, List.map_cons,
          List.filterMap_cons, List.filterMap_cons, ih]
  refine ⟨ids, ids', hl, hl', ?_, ?_⟩
  · exact hp.trans (heq ▸ hp'.symm)
  · intro e he rem id hn hq
    rw [mem_ListIDs s fs es ids hdir hl]
    refine ⟨e, he, ?_⟩
    rw [hn, entryID_name, hq]

/-- Witness for C8: the entry `s:%zz` of the example directory is skipped and
the entries `s:1`, `s:2`, `s:3` and `s:a%2Fb` are listed. -/
theorem list_skips_malformed_witness :
    hasBadPercent [37, 122, 122] = true ∧
    exampleStore.ListIDs messyFS = .ok [[49], [50], [51], [97, 47, 98]] ∧
    ∃ ids ids', exampleStore.ListIDs messyFS = .ok ids ∧
      exampleStore.ListIDs (fun _ => .present
        (messyEntries.filter (fun e => decide (e.1 ≠ storeIDPrefix ++ [37, 122, 122]))))
        = .ok ids' ∧ ids.Perm ids' :=
  ⟨by decide, rfl,
    (list_skips_malformed exampleStore messyFS _ messyEntries [37, 122, 122] rfl rfl
      (by decide)).imp (fun _ h => h.imp (fun _ h => ⟨h.1, h.2.1, h.2.2.1⟩))⟩

/-! ## The store invariant -/

theorem StoreInv_of_clean (es : List (Bytes × Node))
    (h : ∀ e ∈ es, storeIDPrefix.isPrefixOf e.1 = false) : StoreInv es := by
  constructor
  · intro e he hp
    rw [h e he] at hp
    cases hp
  · have : (es.map Prod.fst).filter (fun n => storeIDPrefix.isPrefixOf n) = [] := by
      rw [List.filter_eq_nil_iff]
      intro n hn
      obtain ⟨e, he, rfl⟩ := List.mem_map.mp hn
      simp [h e he]
    rw [this]
    exact List.nodup_nil

theorem StoreInv_setEntry (es : List (Bytes × Node)) (id data : Bytes) (h : StoreInv es)
    (hlen : (storeIDPrefix ++ QueryEscape id).length ≤ NAME_MAX) :
    StoreInv (setEntry (storeIDPrefix ++ QueryEscape id) (.file data 0o660) es) := by
  obtain ⟨h1, h2⟩ := h
  constructor
  · intro e he _
    rcases (mem_setEntry _ _ _ e).mp he with rfl | ⟨he, -⟩
    · exact ⟨id, data, rfl, hlen⟩
    · exact h1 e he ‹_›
  · have hmap : ((es.filter (fun e => decide (e.1 ≠ storeIDPrefix ++ QueryEscape id))).map
        Prod.fst) = (es.map Prod.fst).filter
          (fun n => decide (n ≠ storeIDPrefix ++ QueryEscape id)) := by
      induction es with
      | nil => rfl
      | cons e es ih =>
        have ih' := ih (fun e he => h1 e (List.mem_cons_of_mem _ he))
          (by
            simp only [List.map_cons] at h2
            rw [List.filter_cons] at h2
            split at h2
            · exact (List.nodup_cons.mp h2).2
            · exact h2)
        by_cases hn : e.1 = storeIDPrefix ++ QueryEscape id
        · rw [List.filter_cons_of_neg (by simp [hn]), List.map_cons,
            List.filter_cons_of_neg (by simp [hn]), ih']
        · rw [List.filter_cons_of_pos (by simp [hn]), List.map_cons, List.map_cons,
            List.filter_cons_of_pos (by simp [hn]), ih']
    simp only [setEntry, List.map_cons]
    rw [List.filter_cons_of_pos (isPrefixOf_name _), hmap, List.nodup_cons]
    constructor
    · intro hmem
      have := (List.mem_filter.mp (List.mem_filter.mp hmem).1).2
      simp at this
    · rw [List.filter_comm]
      exact h2.filter _

theorem nodup_filterMap_of_injOn {α β : Type} (f : α → Option β) (l : List α) (hl : l.Nodup)
    (hinj : ∀ a ∈ l, ∀ b ∈ l, ∀ x, f a = some x → f b = some x → a = b) :
    (l.filterMap f).Nodup := by
  induction l with
  | nil => exact List.nodup_nil
  | cons a l ih =>
    have hl' := List.nodup_cons.mp hl
    have ih' := ih hl'.2 (fun a ha b hb x => hinj a (List.mem_cons_of_mem _ ha) b
      (List.mem_cons_of_mem _ hb) x)
    rw [List.filterMap_cons]
    cases hfa : f a with
    | none => exact ih'
    | some x =>
      simp only
      rw [List.nodup_cons]
      refine ⟨?_, ih'⟩
      intro hx
      obtain ⟨b, hb, hfb⟩ := List.mem_filterMap.mp hx
      have := hinj a (List.mem_cons_self _ _) b (List.mem_cons_of_mem _ hb) x hfa hfb
      exact hl'.1 (this ▸ hb)

theorem filterMap_entryID_filter (l : List Bytes) :
    l.filterMap entryID = (l.filter (fun n => storeIDPrefix.isPrefixOf n)).filterMap entryID := by
  induction l with
  | nil => rfl
  | cons n l ih =>
    cases hp : storeIDPrefix.isPrefixOf n with
    | true => rw [List.filter_cons_of_pos hp, List.filterMap_cons, List.filterMap_cons, ih]
    | false =>
      rw [List.filter_cons_of_neg (by simp [hp]), List.filterMap_cons,
        entryID_of_foreign n hp]
      exact ih

/-- In a directory that satisfies the invariant, the listing succeeds, holds
no identifier twice, and every listed identifier has a readable record file. -/
theorem ListIDs_of_StoreInv (s : Store) (fs : FileSys) (es : List (Bytes × Node))
    (hdir : fs s.dir = .present es) (hinv : StoreInv es) :
    ∃ ids, s.ListIDs fs = .ok ids ∧ ids.Nodup ∧
      ∀ id ∈ ids, ∃ data, ReadFile fs (s.idToFname id) = .ok data := by
  obtain ⟨h1, h2⟩ := hinv
  refine ⟨_, ListIDs_present s fs es hdir, ?_, ?_⟩
  · rw [filterMap_entryID_filter]
    apply nodup_filterMap_of_injOn
    · exact ((List.perm_insertionSort _ _).filter _).nodup_iff.mpr h2
    · intro a ha b hb x hax hbx
      have ha' : a ∈ es.map Prod.fst :=
        (List.perm_insertionSort _ _).mem_iff.mp (List.mem_filter.mp ha).1
      have hb' : b ∈ es.map Prod.fst :=
        (List.perm_insertionSort _ _).mem_iff.mp (List.mem_filter.mp hb).1
      obtain ⟨ea, hea, rfl⟩ := List.mem_map.mp ha'
      obtain ⟨eb, heb, rfl⟩ := List.mem_map.mp hb'
      obtain ⟨ida, da, rfl, -⟩ := h1 ea hea (isPrefixOf_of_entryID _ _ hax)
      obtain ⟨idb, db, rfl, -⟩ := h1 eb heb (isPrefixOf_of_entryID _ _ hbx)
      simp only [entryID_escape, Option.some.injEq] at hax hbx
      rw [hax, hbx]
  · intro id hid
    obtain ⟨e, he, hex⟩ := (mem_ListIDs s fs es _ hdir (ListIDs_present s fs es hdir) id).mp hid
    obtain ⟨id', d, rfl, hlen⟩ := h1 e he (isPrefixOf_of_entryID _ _ hex)
    simp only [entryID_escape, Option.some.injEq] at hex
    subst hex
    obtain ⟨node, hnode⟩ := findEntry_isSome_of_mem _ _ es he
    obtain ⟨id'', d', hnd, -⟩ := h1 _ (findEntry_mem _ _ es hnode) (isPrefixOf_name _)
    have hnode' : node = .file d' 0o660 := (Prod.ext_iff.mp hnd).2
    refine ⟨d', ?_⟩
    unfold ReadFile
    rw [stat_idToFname, hdir]
    simp only [Nat.not_lt.mpr hlen, if_false, hnode, hnode']
    rfl

/-- Every sequence of successful `Put`s keeps the store directory present and
the invariant true. -/
theorem putAll_StoreInv {M : Type} (c : Codec M) (s : Store) (ops : List (Bytes × M)) :
    ∀ (fs fs' : FileSys) (es : List (Bytes × Node)), fs s.dir = .present es → StoreInv es →
      putAll c s fs ops = some fs' → ∃ es', fs' s.dir = .present es' ∧ StoreInv es' := by
  induction ops with
  | nil =>
    intro fs fs' es hdir hinv h
    simp only [putAll, Option.some.injEq] at h
    subst h
    exact ⟨es, hdir, hinv⟩
  | cons op ops ih =>
    intro fs fs' es hdir hinv h
    obtain ⟨id, m⟩ := op
    unfold putAll at h
    cases hput : (s.Put c fs id m).2 with
    | some e => simp [hput] at h
    | none =>
      simp only [hput] at h
      obtain ⟨es0, a1, a2, -⟩ := Put_ok c s fs id m hput
      rw [hdir] at a1
      cases a1
      exact ih _ fs' _ a2 (StoreInv_setEntry es id _ hinv (Put_ok_length c s fs id m hput)) h

/-- C10 (store invariant): in every state reached from a directory without
`s:` entries by successful `Put`s, each entry whose name starts with `s:` has
a remainder that unescapes to an identifier whose escaped form is that
remainder; `ListIDs` returns no identifier twice, and each identifier it
returns has an existing, readable record file. -/
theorem store_invariant {M : Type} (c : Codec M) (s : Store) (fs0 fs : FileSys)
    (es0 : List (Bytes × Node)) (ops : List (Bytes × M))
    (hdir : fs0 s.dir = .present es0)
    (hclean : ∀ e ∈ es0, storeIDPrefix.isPrefixOf e.1 = false)
    (hrun : putAll c s fs0 ops = some fs) :
    ∃ es, fs s.dir = .present es ∧
      (∀ e ∈ es, storeIDPrefix.isPrefixOf e.1 = true →
        ∃ id, QueryUnescape (e.1.drop storeIDPrefix.length) = .ok id ∧
          e.1 = storeIDPrefix ++ QueryEscape id) ∧
      ∃ ids, s.ListIDs fs = .ok ids ∧ ids.Nodup ∧
        ∀ id ∈ ids, ∃ data, ReadFile fs (s.idToFname id) = .ok data := by
  obtain ⟨es, hes, hinv⟩ :=
    putAll_StoreInv c s ops fs0 fs es0 hdir (StoreInv_of_clean es0 hclean) hrun
  refine ⟨es, hes, ?_, ListIDs_of_StoreInv s fs es hes hinv⟩
  intro e he hp
  obtain ⟨id, d, rfl, -⟩ := hinv.1 e he hp
  refine ⟨id, ?_, rfl⟩
  simp only [List.drop_left]
  exact QueryUnescape_QueryEscape id

/-- Witness for C10: three writes, one of them an overwrite, into the example
directory. -/
theorem store_invariant_witness :
    putAll unaryCodec exampleStore exampleFS [([98, 47], 1), ([97], 2), ([98, 47], 3)] =
      some (exampleStore.Put unaryCodec (exampleStore.Put unaryCodec
        (exampleStore.Put unaryCodec exampleFS [98, 47] 1).1 [97] 2).1 [98, 47] 3).1 ∧
    ∃ es, (exampleStore.Put unaryCodec (exampleStore.Put unaryCodec
        (exampleStore.Put unaryCodec exampleFS [98, 47] 1).1 [97] 2).1 [98, 47] 3).1
        exampleStore.dir = .present es ∧
      ∃ ids, exampleStore.ListIDs (exampleStore.Put unaryCodec (exampleStore.Put unaryCodec
        (exampleStore.Put unaryCodec exampleFS [98, 47] 1).1 [97] 2).1 [98, 47] 3).1
        = .ok ids ∧ ids.Nodup :=
  ⟨rfl,
    (store_invariant unaryCodec exampleStore exampleFS _
      [([108, 111, 99, 107], .file [] 0o600)] [([98, 47], 1), ([97], 2), ([98, 47], 3)]
      rfl (by decide) rfl).imp (fun _ h => ⟨h.1, h.2.2.imp (fun _ h => ⟨h.1, h.2.1⟩)⟩)⟩

end Protoio
